import Mathlib

/-!
Verification of the conversation-memory subsystem of the Augi assistant
(`src/memory_manager.py`, `src/user_profile.py`, `src/permission_manager.py`).

Python dictionaries are modelled as insertion-ordered association lists
(`List (κ × ν)`): assignment updates an existing key in place and appends a
fresh key at the end, exactly as CPython dicts behave. Python strings are
Lean `String`s; `str.lower()` is `Char.toLower` mapped over the characters,
and the `in` substring test is `List.isInfixOf` on the character lists.
Files are modelled as entries of in-memory directory listings; a file whose
JSON fails to parse is `none`.
-/

set_option maxHeartbeats 1000000
set_option maxRecDepth 16384

namespace Augi

/-- Python dict lookup `d.get(k)` over an insertion-ordered assoc list.
Keys are unique in every dict the model builds, so returning the first
match is exact. -/
def dictFind {ν : Type} : List (String × ν) → String → Option ν
  | [], _ => none
  | p :: t, k => if p.1 = k then some p.2 else dictFind t k

/-- Python dict assignment `d[k] = v`: overwrite in place (keeping the
key's position) if the key exists, otherwise append at the end — CPython
insertion-order semantics. -/
def dictSet {ν : Type} : List (String × ν) → String → ν → List (String × ν)
  | [], k, v => [(k, v)]
  | p :: t, k, v => if p.1 = k then (k, v) :: t else p :: dictSet t k v

/-- The keys of a modelled dict, in insertion order. -/
def dictKeys {ν : Type} (d : List (String × ν)) : List String :=
  d.map Prod.fst

/-- Python `str.lower()` (ASCII case folding, as `Char.toLower`). -/
def strLower (s : String) : String :=
  ⟨s.data.map Char.toLower⟩

/-- Contiguous-sublist test on character lists. -/
def isSubLst (needle : List Char) : List Char → Bool
  | [] => needle.isEmpty
  | c :: cs => needle.isPrefixOf (c :: cs) || isSubLst needle cs

/-- Python `a in b` substring test. -/
def isSubstr (a b : String) : Bool :=
  isSubLst a.data b.data

/-- One message of a conversation transcript: a `{role, content}` pair. -/
structure Message where
  role : String
  content : String
deriving DecidableEq, Repr

/-- The forward-map entry of the conversation index:
`{timestamp, message_count, keywords}` (`add_conversation`, lines 45-49). -/
structure IndexEntry where
  timestamp : String
  message_count : Nat
  keywords : List String
deriving DecidableEq, Repr

/-- State of `ConversationIndex`: the forward map `conversations` and the
inverted map `keywords` of `conversation_index.json`. -/
structure ConvIndex where
  conversations : List (String × IndexEntry)
  keywords : List (String × List String)
deriving DecidableEq, Repr

/-- The empty index `{"conversations": {}, "keywords": {}}` that
`_load_index` creates when no index file exists or it is unreadable. -/
def emptyIndex : ConvIndex := ⟨[], []⟩

/-- Inner step of the keyword-indexing loop of
`ConversationIndex.add_conversation` (lines 52-56): ensure the bucket for
`kw` exists, then append `session_id` to it if absent. -/
def addKeyword (kws : List (String × List String)) (session_id kw : String) :
    List (String × List String) :=
  match dictFind kws kw with
  | none => kws ++ [(kw, [session_id])]
  | some bucket =>
      if session_id ∈ bucket then kws
      else dictSet kws kw (bucket ++ [session_id])

/-- Model of `ConversationIndex.add_conversation` (lines 36-58): overwrite the forward
entry for `session_id`, then add `session_id` to the bucket of every keyword. -/
def add_conversation (idx : ConvIndex) (session_id : String)
    (keywords : List String) (timestamp : String) (message_count : Nat) :
    ConvIndex where
  conversations :=
    dictSet idx.conversations session_id ⟨timestamp, message_count, keywords⟩
  keywords := keywords.foldl (fun kws kw => addKeyword kws session_id kw) idx.keywords

/-- One score increment: `matching_sessions.get(session_id, 0) + delta` followed by the dict
assignment (lines 76 and 82 of `search_by_keywords`). -/
def bump (d : List (String × ℚ)) (session_id : String) (delta : ℚ) :
    List (String × ℚ) :=
  dictSet d session_id (((dictFind d session_id).getD 0) + delta)

/-- The direct-match pass of `search_by_keywords` (lines 73-76): +1 per
session of the exact bucket of the lowered query keyword. -/
def directPass (idx : ConvIndex) (d : List (String × ℚ)) (kl : String) :
    List (String × ℚ) :=
  match dictFind idx.keywords kl with
  | some bucket => bucket.foldl (fun d sid => bump d sid 1) d
  | none => d

/-- The partial-match pass of `search_by_keywords` (lines 78-82): +0.5 per
session of every bucket whose key passes the bidirectional substring test
against the lowered query keyword (the exact bucket passes it trivially). -/
def substrPass (idx : ConvIndex) (d : List (String × ℚ)) (kl : String) :
    List (String × ℚ) :=
  idx.keywords.foldl
    (fun d p =>
      if isSubstr kl p.1 || isSubstr p.1 kl then
        p.2.foldl (fun d sid => bump d sid (1/2)) d
      else d)
    d

/-- Score accumulation of `search_by_keywords` for one query keyword
(lines 71-82): the direct pass followed by the partial pass, both against
`keyword.lower()`. -/
def scoreKeyword (idx : ConvIndex) (d : List (String × ℚ)) (kw : String) :
    List (String × ℚ) :=
  substrPass idx (directPass idx d (strLower kw)) (strLower kw)

/-- The `matching_sessions` score dict of `search_by_keywords` after all
query keywords have been processed. -/
def searchScores (idx : ConvIndex) (keywords : List String) :
    List (String × ℚ) :=
  keywords.foldl (scoreKeyword idx) []

/-- Stable insertion used to model Python's stable
`sorted(..., key=score, reverse=True)`: an element passes over exactly the
earlier elements with strictly greater score, so equal scores keep the
dict's insertion order. -/
def insertDesc (x : String × ℚ) : List (String × ℚ) → List (String × ℚ)
  | [] => [x]
  | y :: ys => if x.2 < y.2 then y :: insertDesc x ys else x :: y :: ys

/-- Model of `sorted(matching_sessions.items(), key=lambda x: x[1], reverse=True)`. -/
def sortDesc (l : List (String × ℚ)) : List (String × ℚ) :=
  l.foldr insertDesc []

/-- Model of `ConversationIndex.search_by_keywords` (lines 60-86): score, sort by
descending relevance, return the session ids. -/
def search_by_keywords (idx : ConvIndex) (keywords : List String) :
    List String :=
  (sortDesc (searchScores idx keywords)).map Prod.fst

/-! ### `MemoryManager._extract_keywords` (memory_manager.py lines 144-177)

The Python code accumulates keywords into one `set` across all messages and
returns `list(keywords)[:20]`. The set's contents are represented as a
duplicate-free list in encounter order (`insertNew` mirrors `set.add`:
adding a present element changes nothing). `list(keywords)` enumerates the
set in CPython's unspecified, hash-seed-dependent order, which insertion
order does NOT model; that ambient enumeration is therefore an explicit
parameter `enum` of `extract_keywords`, constrained in the theorems to
permutations of the collected contents. -/

/-- The fixed topic vocabulary `important_words` (lines 159-164). -/
def important_words : List String :=
  ["python", "code", "help", "learn", "project", "question",
   "error", "problem", "solution", "idea", "discuss", "explain",
   "how", "what", "why", "when", "where", "about", "like",
   "build", "create", "develop", "design", "plan", "work"]

/-- Python `set.add`: append if not already present (insertion-ordered set model). -/
def insertNew (acc : List String) (x : String) : List String :=
  if x ∈ acc then acc else acc ++ [x]

/-- Python `str.split()`: split on whitespace runs, dropping empty pieces. -/
def splitWsAux : List Char → List Char → List (List Char)
  | acc, [] => if acc.isEmpty then [] else [acc.reverse]
  | acc, c :: cs =>
      if c.isWhitespace then
        if acc.isEmpty then splitWsAux [] cs
        else acc.reverse :: splitWsAux [] cs
      else splitWsAux (c :: acc) cs

/-- Python `content.split()`. -/
def splitWs (s : String) : List String :=
  (splitWsAux [] s.data).map fun l => (⟨l⟩ : String)

/-- The per-message body of the `_extract_keywords` loop (lines 155-175):
collect topic-vocabulary substring hits, then the adjacent two-word phrases
of the lowered content whose length lies strictly between 5 and 50. -/
def msgKeywordStep (acc : List String) (msg : Message) : List String :=
  let content := strLower msg.content
  let acc := important_words.foldl
    (fun acc w => if isSubstr w content then insertNew acc w else acc) acc
  let ws := splitWs content
  (ws.zip ws.tail).foldl
    (fun acc p =>
      if 5 < (p.1 ++ " " ++ p.2).length ∧ (p.1 ++ " " ++ p.2).length < 50 then
        insertNew acc (p.1 ++ " " ++ p.2)
      else acc)
    acc

/-- The contents of the `keywords` set after the whole scan, as a
duplicate-free list in encounter order — a canonical representative of the
set's (order-free) contents, over which an enumeration order is applied. -/
def collectedKeywords (messages : List Message) : List String :=
  messages.foldl msgKeywordStep []

/-- Model of `MemoryManager._extract_keywords`: `list(keywords)[:20]`.
`enum` stands for the unspecified hash-dependent order in which
`list(keywords)` enumerates the set — any permutation of the collected
contents — and `take 20` keeps the first twenty of that enumeration. -/
def extract_keywords (enum : List String → List String)
    (messages : List Message) : List String :=
  (enum (collectedKeywords messages)).take 20

/-! ### `UserProfileManager` (user_profile.py) -/

/-- The profile record of `_create_empty_profile` (lines 18-33); the Python
`set`-valued fields are `Finset`s, dict-valued fields are assoc lists. -/
structure Profile where
  created : String
  last_updated : String
  preferred_name : Option String
  interests : Finset String
  skills : Finset String
  preferences : List (String × String)
  hobbies : Finset String
  work_info : List (String × String)
  favorite_apps : List String
  favorite_games : List String
  commonly_used_files : List String
  learning_notes : List (String × String)
deriving DecidableEq

/-- An `extracted_info` dictionary as consumed by `update_profile`: `none`
means the key is absent from the dict. -/
structure ExtractedInfo where
  preferred_name : Option String
  interests : Option (Finset String)
  skills : Option (Finset String)
  preferences : Option (List (String × String))

/-- Model of `UserProfileManager.update_profile` (lines 112-135): refresh
`last_updated`; overwrite `preferred_name` when a truthy (non-empty) value
was extracted; union `interests` and `skills`; per-key overwrite of
`preferences`. -/
def update_profile (p : Profile) (e : ExtractedInfo) (now : String) : Profile :=
  { p with
    last_updated := now,
    preferred_name :=
      match e.preferred_name with
      | some n => if n = "" then p.preferred_name else some n
      | none => p.preferred_name,
    interests :=
      match e.interests with
      | some s => p.interests ∪ s
      | none => p.interests,
    skills :=
      match e.skills with
      | some s => p.skills ∪ s
      | none => p.skills,
    preferences :=
      match e.preferences with
      | some prefs => prefs.foldl (fun d kv => dictSet d kv.1 kv.2) p.preferences
      | none => p.preferences }

/-! ### `MemoryManager` (memory_manager.py lines 90-467)

The memory directory is modelled in memory: the `conversations/` directory
is an assoc list keyed by session id (the file of session `s` is
`conversations/<s>.json`, so session ids and file names are in bijection),
and the single-file artifacts are `Option`s (present or absent). A present
conversation file is `some d` when its JSON parses to a dict and `none`
when it is corrupt (`json.JSONDecodeError`) or not a dict. Parsed JSON
dicts may lack any key, hence the `Option` fields mirroring `data.get`. -/

/-- Parsed content of a `conversations/<sid>.json` file. -/
structure ConvFileData where
  timestamp : Option String
  session_id : Option String
  messages : Option (List Message)
  message_count : Option Nat
deriving DecidableEq, Repr

/-- A conversation file: `none` models unparsable/non-dict JSON. -/
abbrev ConvFile := Option ConvFileData

/-- The persisted state a `MemoryManager` owns. `conversations` is kept in
the order `list_conversations` sees after its sort by modification time
(newest first). -/
structure MemoryState where
  conversations : List (String × ConvFile)
  current_session : Option (List Message)
  profile_file : Option Profile
  index : ConvIndex
deriving DecidableEq

/-- Model of `MemoryManager.save_conversation` (lines 108-142). `session_id = None`
and `session_id = ""` are both falsy, so the generated timestamp id
`gen_id` is used for them; `now` stands for `datetime.now().isoformat()`,
and `enum` for the ambient set-enumeration order of `_extract_keywords`. -/
def save_conversation (enum : List String → List String) (st : MemoryState)
    (history : List Message) (session_id : Option String)
    (gen_id now : String) : String × MemoryState :=
  let sid :=
    match session_id with
    | none => gen_id
    | some s => if s = "" then gen_id else s
  let data : ConvFileData := ⟨some now, some sid, some history, some history.length⟩
  (sid,
   { st with
      conversations := dictSet st.conversations sid (some data),
      index := add_conversation st.index sid (extract_keywords enum history) now history.length })

/-- Model of `MemoryManager.load_conversation` (lines 180-199): `none` when the file
is absent or corrupt, else `data.get("messages", [])`. -/
def load_conversation (st : MemoryState) (session_id : String) :
    Option (List Message) :=
  match dictFind st.conversations session_id with
  | none => none
  | some none => none
  | some (some d) => some (d.messages.getD [])

/-- One element of the `list_conversations` result. -/
structure ConvSummary where
  session_id : String
  timestamp : Option String
  message_count : Nat
deriving DecidableEq, Repr

/-- The summary built at lines 257-261: `data.get("session_id",
file_path.stem)`, `data.get("timestamp")`, `data.get("message_count", 0)`. -/
def summaryOfFile (stem : String) (d : ConvFileData) : ConvSummary :=
  ⟨d.session_id.getD stem, d.timestamp, d.message_count.getD 0⟩

/-- Model of `MemoryManager.list_conversations` (lines 232-266): take the `limit`
newest files, skip the ones that fail to parse, summarize the rest. -/
def list_conversations (files : List (String × ConvFile)) (limit : Nat) :
    List ConvSummary :=
  (files.take limit).filterMap fun f => f.2.map (summaryOfFile f.1)

/-- Model of `MemoryManager.clear_memory` (lines 369-401): without `confirm` nothing
happens and `False` is returned; with it every conversation file, the
current-session file, the profile file and the index file are removed and
a fresh empty index is constructed. -/
def clear_memory (st : MemoryState) (confirm : Bool) : Bool × MemoryState :=
  if !confirm then (false, st)
  else (true, ⟨[], none, none, emptyIndex⟩)

/-! ### `UserProfileManager.extract_from_conversation` (user_profile.py
lines 35-110)

String helpers mirror the Python built-ins used there. A crash of the pass
(the `IndexError` reachable at line 85 when nothing follows a name phrase)
is modelled as `Except.error ()`. -/

/-- Python `str.strip()` (whitespace from both ends). -/
def pyStrip (s : String) : String :=
  ⟨((s.data.dropWhile Char.isWhitespace).reverse.dropWhile Char.isWhitespace).reverse⟩

/-- Python `str.strip(chars)`: remove the given characters from both ends. -/
def stripChars (cs : List Char) (s : String) : String :=
  ⟨((s.data.dropWhile (· ∈ cs)).reverse.dropWhile (· ∈ cs)).reverse⟩

/-- Python `str.isalpha()`. -/
def pyIsAlpha (s : String) : Bool :=
  !s.data.isEmpty && s.data.all Char.isAlpha

/-- Python `str.capitalize()`: first character upper-cased, rest lowered. -/
def pyCapitalize (s : String) : String :=
  match s.data with
  | [] => ""
  | c :: cs => ⟨Char.toUpper c :: cs.map Char.toLower⟩

/-- Python `hay.find(needle)` restricted to a found result: index of the
first occurrence, `none` when absent. -/
def findSub (needle : List Char) : List Char → Option Nat
  | [] => if needle.isEmpty then some 0 else none
  | c :: cs =>
      if needle.isPrefixOf (c :: cs) then some 0
      else (findSub needle cs).map (· + 1)

/-- Fuel-driven worker for `str.split(sep)` with non-empty `sep`; each step
consumes at least one character, so `|s| + 1` fuel always suffices. -/
def splitOnSubAux (sep : List Char) : Nat → List Char → List (List Char)
  | 0, s => [s]
  | fuel + 1, s =>
      match findSub sep s with
      | none => [s]
      | some i => s.take i :: splitOnSubAux sep fuel (s.drop (i + sep.length))

/-- Python `s.split(sep)`. Every separator passed by the source is a
non-empty literal; the empty-separator case (a `ValueError` in Python) is
never reached. -/
def splitOnSub (sep s : String) : List String :=
  if sep.data.isEmpty then [s]
  else (splitOnSubAux sep.data (s.data.length + 1) s.data).map fun l => (⟨l⟩ : String)

/-- The `interest_keywords` list (lines 52-55). -/
def interest_keywords : List String :=
  ["i like", "i love", "i enjoy", "interested in", "hobby",
   "passion", "fascinated", "enthusiast", "fan of", "into"]

/-- The `skill_keywords` list (lines 58-61). -/
def skill_keywords : List String :=
  ["i know", "i can", "i\x27m good at", "expertise", "skilled in",
   "experienced with", "proficient", "master", "expert"]

/-- The `preference_keywords` list (lines 64-67). The source defines this list but
no loop ever reads it, so extracted preferences stay empty. -/
def preference_keywords : List String :=
  ["prefer", "like to", "rather", "don\x27t like", "hate",
   "dislike", "avoid"]

/-- The `name_phrases` list (lines 69-76). -/
def name_phrases : List String :=
  ["my name is ", "i am ", "i\x27m ", "call me ",
   "you can call me ", "people call me "]

/-- The `extracted` dictionary built by one run of the pass; Python sets are
modelled as insertion-ordered duplicate-free lists. `preferences` is always
empty (see `preference_keywords`). -/
structure ExtractResult where
  interests : List String
  skills : List String
  preferences : List (String × String)
  mentions : List String
  preferred_name : Option String
deriving DecidableEq, Repr

/-- The name-phrase loop (lines 82-87): for each phrase present in the
lowered content, take the first word of the original content after the
first occurrence (`IndexError` when there is none), strip `". ,!?"`, and
keep it capitalized when alphabetic of length > 1. -/
def nameFromPhrases (content cl : String) :
    List String → Option String → Except Unit (Option String)
  | [], cur => .ok cur
  | ph :: rest, cur =>
      if isSubstr ph cl then
        match findSub ph.data cl.data with
        | none => nameFromPhrases content cl rest cur
        | some i =>
            match splitWs ⟨content.data.drop (i + ph.length)⟩ with
            | [] => .error ()
            | w :: _ =>
                let cand := stripChars ['.', ' ', ',', '!', '?'] w
                if cand ≠ "" ∧ pyIsAlpha cand ∧ 1 < cand.length then
                  nameFromPhrases content cl rest (some (pyCapitalize cand))
                else nameFromPhrases content cl rest cur
      else nameFromPhrases content cl rest cur

/-- The value captured after a trigger keyword (lines 91-95, 99-103):
`parts[1][:50].strip().split('.')[0].strip()`. -/
def capturedValue (p1 : String) : String :=
  pyStrip ((splitOnSub "." (pyStrip ⟨p1.data.take 50⟩)).headD "")

/-- One trigger-keyword loop over the lowered content: when the keyword
occurs, capture the span after its first occurrence and keep it when its
length exceeds 2. -/
def captureByKeywords (cl : String) (kws : List String) (acc : List String) :
    List String :=
  kws.foldl
    (fun acc kw =>
      if isSubstr kw cl then
        match splitOnSub kw cl with
        | _ :: p1 :: _ =>
            let v := capturedValue p1
            if v ≠ "" ∧ 2 < v.length then insertNew acc v else acc
        | _ => acc
      else acc)
    acc

/-- The mention loop (lines 105-109): words following `"my"`, `"i've"` or
`"i'm"`. -/
def captureMentions (cl : String) (acc : List String) : List String :=
  if isSubstr "my" cl || isSubstr "i" cl then
    let ws := splitWs cl
    (ws.zip ws.tail).foldl
      (fun acc p =>
        if p.1 = "my" ∨ p.1 = "i\x27ve" ∨ p.1 = "i\x27m" then insertNew acc p.2
        else acc)
      acc
  else acc

/-- Processing of one message of the history (lines 77-109): only
user-authored turns are mined. -/
def extractMsg (r : ExtractResult) (msg : Message) : Except Unit ExtractResult :=
  if msg.role = "user" then do
    let content := pyStrip msg.content
    let cl := strLower content
    let nm ← nameFromPhrases content cl name_phrases r.preferred_name
    .ok { r with
            preferred_name := nm,
            interests := captureByKeywords cl interest_keywords r.interests,
            skills := captureByKeywords cl skill_keywords r.skills,
            mentions := captureMentions cl r.mentions }
  else .ok r

/-- Ambient per-run context: wall clock, process identity, and the hash seed
that randomizes Python set iteration between processes. The extraction pass
receives it and reads none of it. -/
structure RunEnv where
  now : String
  process_id : Nat
  hash_seed : Nat

/-- Model of `UserProfileManager.extract_from_conversation` (lines 35-110). -/
def extract_from_conversation (_env : RunEnv) (history : List Message) :
    Except Unit ExtractResult :=
  history.foldlM extractMsg ⟨[], [], [], [], none⟩

/-! ### `PermissionManager` (permission_manager.py) -/

/-- The `PermissionLevel` enum (lines 9-13). -/
inductive PermLevel
  | DENY
  | REQUIRE_CONFIRMATION
  | ALLOW
deriving DecidableEq, Repr

/-- The `OperationType` enum (lines 16-23). -/
inductive OperationType
  | FILE_READ
  | FILE_WRITE
  | FILE_DELETE
  | APP_LAUNCH
  | SYSTEM_COMMAND
  | INTERNET_ACCESS
deriving DecidableEq, Repr

/-- The `value` of each `OperationType` member. -/
def OperationType.val : OperationType → String
  | .FILE_READ => "file_read"
  | .FILE_WRITE => "file_write"
  | .FILE_DELETE => "file_delete"
  | .APP_LAUNCH => "app_launch"
  | .SYSTEM_COMMAND => "system_command"
  | .INTERNET_ACCESS => "internet_access"

/-- Model of `_set_default_permissions` (lines 51-59): note the table has no entry
for `INTERNET_ACCESS`. -/
def default_permissions : List (String × PermLevel) :=
  [("file_read", .REQUIRE_CONFIRMATION),
   ("file_write", .REQUIRE_CONFIRMATION),
   ("file_delete", .DENY),
   ("app_launch", .REQUIRE_CONFIRMATION),
   ("system_command", .DENY)]

/-- Model of `_cleanup_expired_permissions` (lines 103-108): drop entries whose
expiry instant lies strictly in the past. Instants are modelled as `Nat`. -/
def cleanupExpired (now : Nat) (temps : List (String × PermLevel × Nat)) :
    List (String × PermLevel × Nat) :=
  temps.filter fun t => ¬ now > t.2.2

/-- Model of `check_permission` (lines 78-88): cleanup, then the unexpired temporary
grant if any, else the configured level, else `DENY`. -/
def check_permission (permissions : List (String × PermLevel))
    (temps : List (String × PermLevel × Nat)) (now : Nat)
    (op : OperationType) : PermLevel :=
  match dictFind (cleanupExpired now temps) op.val with
  | some pe => pe.1
  | none => (dictFind permissions op.val).getD .DENY

/-! ### Supporting lemmas on the dict model -/

theorem dictFind_dictSet_self {ν : Type} (d : List (String × ν)) (k : String)
    (v : ν) : dictFind (dictSet d k v) k = some v := by
  induction d with
  | nil => simp [dictSet, dictFind]
  | cons p t ih =>
      by_cases h : p.1 = k
      · simp [dictSet, h, dictFind]
      · simp [dictSet, h, dictFind, ih]

theorem dictFind_dictSet_ne {ν : Type} (d : List (String × ν)) {k k' : String}
    (v : ν) (h : k' ≠ k) : dictFind (dictSet d k v) k' = dictFind d k' := by
  induction d with
  | nil => simp [dictSet, dictFind, Ne.symm h]
  | cons p t ih =>
      by_cases hp : p.1 = k
      · have hp' : ¬ p.1 = k' := by rw [hp]; exact Ne.symm h
        simp [dictSet, hp, dictFind, Ne.symm h, hp']
      · simp [dictSet, hp, dictFind, ih]

theorem dictFind_append_of_some {ν : Type} {d : List (String × ν)}
    {k : String} {v : ν} (l : List (String × ν)) (h : dictFind d k = some v) :
    dictFind (d ++ l) k = some v := by
  induction d with
  | nil => simp [dictFind] at h
  | cons p t ih =>
      by_cases hp : p.1 = k
      · simpa [dictFind, hp] using h
      · rw [dictFind, if_neg hp] at h
        simpa [dictFind, hp] using ih h

theorem dictFind_append_of_none {ν : Type} {d : List (String × ν)}
    {k : String} (l : List (String × ν)) (h : dictFind d k = none) :
    dictFind (d ++ l) k = dictFind l k := by
  induction d with
  | nil => simp [dictFind]
  | cons p t ih =>
      by_cases hp : p.1 = k
      · simp [dictFind, hp] at h
      · rw [dictFind, if_neg hp] at h
        simpa [dictFind, hp] using ih h

theorem dictKeys_nil {ν : Type} : dictKeys ([] : List (String × ν)) = [] := rfl

theorem dictKeys_cons {ν : Type} (p : String × ν) (t : List (String × ν)) :
    dictKeys (p :: t) = p.1 :: dictKeys t := rfl

/-- Assignment `d[k] = v` keeps the key sequence when `k` was present and appends `k`
otherwise. -/
theorem dictKeys_dictSet {ν : Type} (d : List (String × ν)) (k : String)
    (v : ν) :
    dictKeys (dictSet d k v) =
      if k ∈ dictKeys d then dictKeys d else dictKeys d ++ [k] := by
  induction d with
  | nil => simp [dictSet, dictKeys_nil, dictKeys_cons]
  | cons p t ih =>
      by_cases hp : p.1 = k
      · subst hp; simp [dictSet, dictKeys_cons]
      · by_cases hmem : k ∈ dictKeys t
        · simp [dictSet, hp, dictKeys_cons, ih, hmem, Ne.symm hp]
        · simp [dictSet, hp, dictKeys_cons, ih, hmem, Ne.symm hp]

theorem mem_dictKeys_dictSet_self {ν : Type} (d : List (String × ν))
    (k : String) (v : ν) : k ∈ dictKeys (dictSet d k v) := by
  rw [dictKeys_dictSet]
  split
  · assumption
  · simp

theorem mem_dictKeys_dictSet_of_mem {ν : Type} {d : List (String × ν)}
    {k' : String} (k : String) (v : ν) (h : k' ∈ dictKeys d) :
    k' ∈ dictKeys (dictSet d k v) := by
  rw [dictKeys_dictSet]
  split
  · exact h
  · exact List.mem_append_left _ h

/-! ### Lemmas on score bumping and the stable sort -/

theorem mem_dictKeys_bump_self (d : List (String × ℚ)) (sid : String) (q : ℚ) :
    sid ∈ dictKeys (bump d sid q) :=
  mem_dictKeys_dictSet_self d sid _

theorem mem_dictKeys_bump_of_mem {d : List (String × ℚ)} {sid' : String}
    (sid : String) (q : ℚ) (h : sid' ∈ dictKeys d) :
    sid' ∈ dictKeys (bump d sid q) :=
  mem_dictKeys_dictSet_of_mem sid _ h

theorem mem_dictKeys_foldl_bump_of_mem {sid' : String} (l : List String) (q : ℚ) :
    ∀ d : List (String × ℚ), sid' ∈ dictKeys d →
      sid' ∈ dictKeys (l.foldl (fun d s => bump d s q) d) := by
  induction l with
  | nil => exact fun d h => h
  | cons s t ih => exact fun d h => ih _ (mem_dictKeys_bump_of_mem s q h)

theorem mem_dictKeys_foldl_bump_of_mem_list {sid : String} {l : List String}
    (q : ℚ) (h : sid ∈ l) :
    ∀ d : List (String × ℚ), sid ∈ dictKeys (l.foldl (fun d s => bump d s q) d) := by
  induction l with
  | nil => cases h
  | cons s t ih =>
      intro d
      rcases List.mem_cons.mp h with rfl | h'
      · exact mem_dictKeys_foldl_bump_of_mem t q _ (mem_dictKeys_bump_self d sid q)
      · exact ih h' _

theorem mem_insertDesc {y x : String × ℚ} :
    ∀ {l : List (String × ℚ)}, y ∈ insertDesc x l ↔ y = x ∨ y ∈ l := by
  intro l
  induction l with
  | nil => simp [insertDesc]
  | cons p t ih =>
      by_cases h : x.2 < p.2
      · simp [insertDesc, h, ih]
        tauto
      · simp [insertDesc, h]

theorem mem_sortDesc_of_mem {y : String × ℚ} :
    ∀ {l : List (String × ℚ)}, y ∈ l → y ∈ sortDesc l := by
  intro l
  induction l with
  | nil => intro h; cases h
  | cons p t ih =>
      intro h
      rcases List.mem_cons.mp h with rfl | h'
      · exact mem_insertDesc.mpr (Or.inl rfl)
      · exact mem_insertDesc.mpr (Or.inr (ih h'))

theorem mem_map_fst_sortDesc {sid : String} {l : List (String × ℚ)}
    (h : sid ∈ dictKeys l) : sid ∈ (sortDesc l).map Prod.fst := by
  obtain ⟨p, hp, hfst⟩ := List.mem_map.mp h
  exact List.mem_map.mpr ⟨p, mem_sortDesc_of_mem hp, hfst⟩

/-! ### Lemmas on the inverted-index update -/

theorem addKeyword_preserves {kws : List (String × List String)}
    {k : String} {b : List String} {sid' : String} (sid kw : String)
    (h : dictFind kws k = some b) (hs : sid' ∈ b) :
    ∃ b', dictFind (addKeyword kws sid kw) k = some b' ∧ sid' ∈ b' := by
  unfold addKeyword
  cases hfind : dictFind kws kw with
  | none => exact ⟨b, dictFind_append_of_some _ h, hs⟩
  | some bucket =>
      by_cases hmem : sid ∈ bucket
      · simpa [hmem] using ⟨b, h, hs⟩
      · simp only [hmem, if_false]
        by_cases hk : k = kw
        · subst hk
          rw [h] at hfind
          cases hfind
          exact ⟨b ++ [sid], dictFind_dictSet_self _ _ _,
            List.mem_append_left _ hs⟩
        · exact ⟨b, by rw [dictFind_dictSet_ne _ _ hk]; exact h, hs⟩

theorem addKeyword_establishes (kws : List (String × List String))
    (sid kw : String) :
    ∃ b, dictFind (addKeyword kws sid kw) kw = some b ∧ sid ∈ b := by
  unfold addKeyword
  cases hfind : dictFind kws kw with
  | none =>
      refine ⟨[sid], ?_, by simp⟩
      rw [dictFind_append_of_none _ hfind]
      simp [dictFind]
  | some bucket =>
      by_cases hmem : sid ∈ bucket
      · simpa [hmem] using ⟨bucket, hfind, hmem⟩
      · simp only [hmem, if_false]
        exact ⟨bucket ++ [sid], dictFind_dictSet_self _ _ _, by simp⟩

theorem foldl_addKeyword_preserves {k sid' : String} (K : List String)
    (sid : String) :
    ∀ (kws : List (String × List String)) (b : List String),
      dictFind kws k = some b → sid' ∈ b →
      ∃ b', dictFind (K.foldl (fun a kw => addKeyword a sid kw) kws) k = some b' ∧
        sid' ∈ b' := by
  induction K with
  | nil => exact fun kws b h hs => ⟨b, h, hs⟩
  | cons kw rest ih =>
      intro kws b h hs
      obtain ⟨b', h', hs'⟩ := addKeyword_preserves sid kw h hs
      exact ih _ b' h' hs'

theorem foldl_addKeyword_mem {k : String} (K : List String) (sid : String)
    (hk : k ∈ K) :
    ∀ kws : List (String × List String),
      ∃ b, dictFind (K.foldl (fun a kw => addKeyword a sid kw) kws) k = some b ∧
        sid ∈ b := by
  induction K with
  | nil => cases hk
  | cons kw rest ih =>
      intro kws
      rcases List.mem_cons.mp hk with rfl | h'
      · obtain ⟨b, hb, hsb⟩ := addKeyword_establishes kws sid k
        exact foldl_addKeyword_preserves rest sid _ b hb hsb
      · exact ih h' _

theorem substrFold_keys_mono (entries : List (String × List String))
    (kl : String) {sid : String} :
    ∀ d, sid ∈ dictKeys d →
      sid ∈ dictKeys (entries.foldl
        (fun d p =>
          if isSubstr kl p.1 || isSubstr p.1 kl then
            p.2.foldl (fun d s => bump d s (1/2)) d
          else d)
        d) := by
  induction entries with
  | nil => exact fun d h => h
  | cons p t ih =>
      intro d h
      by_cases hc : (isSubstr kl p.1 || isSubstr p.1 kl) = true
      · simp only [List.foldl_cons, hc, if_true]
        exact ih _ (mem_dictKeys_foldl_bump_of_mem p.2 _ d h)
      · simp only [List.foldl_cons, hc, if_false]
        exact ih d h

theorem substrPass_keys_mono (idx : ConvIndex) (kl : String) {sid : String}
    (d : List (String × ℚ)) (h : sid ∈ dictKeys d) :
    sid ∈ dictKeys (substrPass idx d kl) :=
  substrFold_keys_mono idx.keywords kl d h

theorem scoreKeyword_keys_mem {idx : ConvIndex} {kw sid : String}
    {b : List String} (hb : dictFind idx.keywords (strLower kw) = some b)
    (hsb : sid ∈ b) (d : List (String × ℚ)) :
    sid ∈ dictKeys (scoreKeyword idx d kw) := by
  have h1 : sid ∈ dictKeys (directPass idx d (strLower kw)) := by
    unfold directPass
    rw [hb]
    exact mem_dictKeys_foldl_bump_of_mem_list 1 hsb d
  exact substrPass_keys_mono idx (strLower kw) _ h1

/-! ### Reachable index states -/

/-- A whole history of `add_conversation` calls, applied in order:
`(session_id, (keywords, (timestamp, message_count)))`. -/
def applyAdds (idx : ConvIndex)
    (ops : List (String × List String × String × Nat)) : ConvIndex :=
  ops.foldl (fun i o => add_conversation i o.1 o.2.1 o.2.2.1 o.2.2.2) idx

/-- The direction of the C2 invariant that does hold: every keyword of a
session's current forward entry has that session in its inverted bucket. -/
def forwardInInverted (idx : ConvIndex) : Prop :=
  ∀ sid e, dictFind idx.conversations sid = some e →
    ∀ k ∈ e.keywords, ∃ b, dictFind idx.keywords k = some b ∧ sid ∈ b

theorem add_conversation_preserves_forwardInInverted {idx : ConvIndex}
    (hI : forwardInInverted idx) (sid : String) (K : List String)
    (t : String) (n : Nat) :
    forwardInInverted (add_conversation idx sid K t n) := by
  intro sid' e he k hk
  by_cases hs : sid' = sid
  · subst hs
    have hself := dictFind_dictSet_self idx.conversations sid'
      (⟨t, n, K⟩ : IndexEntry)
    have he' : dictFind (add_conversation idx sid' K t n).conversations sid' =
        some (⟨t, n, K⟩ : IndexEntry) := hself
    rw [he'] at he
    cases he
    exact foldl_addKeyword_mem K sid' hk idx.keywords
  · have he' : dictFind idx.conversations sid' = some e := by
      have := dictFind_dictSet_ne idx.conversations
        (⟨t, n, K⟩ : IndexEntry) hs
      rw [← this]
      exact he
    obtain ⟨b, hb, hsb⟩ := hI sid' e he' k hk
    exact foldl_addKeyword_preserves K sid idx.keywords b hb hsb

theorem applyAdds_forwardInInverted
    (ops : List (String × List String × String × Nat)) :
    ∀ idx, forwardInInverted idx → forwardInInverted (applyAdds idx ops) := by
  induction ops with
  | nil => exact fun idx h => h
  | cons o t ih =>
      intro idx h
      exact ih _ (add_conversation_preserves_forwardInInverted h o.1 o.2.1
        o.2.2.1 o.2.2.2)

theorem emptyIndex_forwardInInverted : forwardInInverted emptyIndex := by
  intro sid e he
  cases he

/-! ### Lemmas for the keyword-extraction characterization -/

theorem toLower_eq_of_not_upper {c : Char}
    (h : ¬(c.toNat ≥ 65 ∧ c.toNat ≤ 90)) : c.toLower = c := by
  show (if c.toNat ≥ 65 ∧ c.toNat ≤ 90 then Char.ofNat (c.toNat + 32) else c) = c
  rw [if_neg h]

theorem toNat_toLower (c : Char) :
    c.toLower.toNat =
      if c.toNat ≥ 65 ∧ c.toNat ≤ 90 then c.toNat + 32 else c.toNat := by
  show (if c.toNat ≥ 65 ∧ c.toNat ≤ 90 then Char.ofNat (c.toNat + 32) else c).toNat = _
  by_cases h : c.toNat ≥ 65 ∧ c.toNat ≤ 90
  · rw [if_pos h, if_pos h]
    have hvalid : (c.toNat + 32).isValidChar := Or.inl (by omega)
    simp only [Char.ofNat, dif_pos hvalid]
    rfl
  · rw [if_neg h, if_neg h]

theorem toLower_idem (c : Char) : c.toLower.toLower = c.toLower := by
  apply toLower_eq_of_not_upper
  rw [toNat_toLower]
  by_cases h : c.toNat ≥ 65 ∧ c.toNat ≤ 90
  · rw [if_pos h]; omega
  · rw [if_neg h]; exact h

theorem strLower_data (s : String) :
    (strLower s).data = s.data.map Char.toLower := rfl

theorem strLower_eq_self {s : String} (h : ∀ c ∈ s.data, c.toLower = c) :
    strLower s = s := by
  have hmap : s.data.map Char.toLower = s.data := by
    calc s.data.map Char.toLower = s.data.map id :=
          List.map_congr_left (fun a ha => h a ha)
    _ = s.data := List.map_id s.data
  show String.mk (s.data.map Char.toLower) = s
  rw [hmap]

theorem mem_data_strLower {s : String} {c : Char}
    (h : c ∈ (strLower s).data) : c.toLower = c := by
  rw [strLower_data] at h
  obtain ⟨c₀, _, rfl⟩ := List.mem_map.mp h
  exact toLower_idem c₀

theorem splitWsAux_chars :
    ∀ (cs acc : List Char) (w : List Char), w ∈ splitWsAux acc cs →
      ∀ c ∈ w, c ∈ acc ∨ c ∈ cs := by
  intro cs
  induction cs with
  | nil =>
      intro acc w hw c hc
      unfold splitWsAux at hw
      by_cases ha : acc.isEmpty
      · rw [if_pos ha] at hw
        cases hw
      · rw [if_neg ha] at hw
        have hwa : w = acc.reverse := by simpa using hw
        subst hwa
        exact Or.inl (by simpa using hc)
  | cons ch cs ih =>
      intro acc w hw c hc
      unfold splitWsAux at hw
      by_cases hws : ch.isWhitespace
      · rw [if_pos hws] at hw
        by_cases ha : acc.isEmpty
        · rw [if_pos ha] at hw
          rcases ih [] w hw c hc with h | h
          · cases h
          · exact Or.inr (List.mem_cons_of_mem _ h)
        · rw [if_neg ha] at hw
          rcases List.mem_cons.mp hw with rfl | hw'
          · exact Or.inl (by simpa using hc)
          · rcases ih [] w hw' c hc with h | h
            · cases h
            · exact Or.inr (List.mem_cons_of_mem _ h)
      · rw [if_neg hws] at hw
        rcases ih (ch :: acc) w hw c hc with h | h
        · rcases List.mem_cons.mp h with rfl | h'
          · exact Or.inr (List.mem_cons_self _ _)
          · exact Or.inl h'
        · exact Or.inr (List.mem_cons_of_mem _ h)

theorem mem_splitWs_chars {s w : String} (hw : w ∈ splitWs s) :
    ∀ c ∈ w.data, c ∈ s.data := by
  unfold splitWs at hw
  obtain ⟨l, hl, rfl⟩ := List.mem_map.mp hw
  intro c hc
  rcases splitWsAux_chars s.data [] l hl c hc with h | h
  · cases h
  · exact h

theorem phrase_lower {s w₁ w₂ : String}
    (h1 : w₁ ∈ splitWs (strLower s)) (h2 : w₂ ∈ splitWs (strLower s)) :
    strLower (w₁ ++ " " ++ w₂) = w₁ ++ " " ++ w₂ := by
  apply strLower_eq_self
  intro c hc
  rw [String.data_append, String.data_append] at hc
  rcases List.mem_append.mp hc with hc' | hc'
  · rcases List.mem_append.mp hc' with hc'' | hc''
    · exact mem_data_strLower (mem_splitWs_chars h1 c hc'')
    · have hsp : c = ' ' := by simpa using hc''
      subst hsp
      decide
  · exact mem_data_strLower (mem_splitWs_chars h2 c hc')

theorem mem_insertNew {acc : List String} {x kw : String}
    (h : kw ∈ insertNew acc x) : kw ∈ acc ∨ kw = x := by
  unfold insertNew at h
  by_cases hx : x ∈ acc
  · rw [if_pos hx] at h
    exact Or.inl h
  · rw [if_neg hx] at h
    rcases List.mem_append.mp h with h' | h'
    · exact Or.inl h'
    · exact Or.inr (by simpa using h')

theorem mem_foldl_insertNew {α : Type} (cond : α → Prop) [DecidablePred cond]
    (f : α → String) :
    ∀ (l : List α) (acc : List String) (kw : String),
      kw ∈ l.foldl (fun acc a => if cond a then insertNew acc (f a) else acc) acc →
      kw ∈ acc ∨ ∃ a ∈ l, cond a ∧ kw = f a := by
  intro l
  induction l with
  | nil => exact fun acc kw h => Or.inl h
  | cons a t ih =>
      intro acc kw h
      rw [List.foldl_cons] at h
      rcases ih _ kw h with h' | ⟨a', ha', hc', he'⟩
      · by_cases hca : cond a
        · rw [if_pos hca] at h'
          rcases mem_insertNew h' with h'' | h''
          · exact Or.inl h''
          · exact Or.inr ⟨a, List.mem_cons_self _ _, hca, h''⟩
        · rw [if_neg hca] at h'
          exact Or.inl h'
      · exact Or.inr ⟨a', List.mem_cons_of_mem _ ha', hc', he'⟩

/-- Where a keyword collected by one message's pass comes from: a vocabulary
substring hit or a length-guarded adjacent two-word phrase. -/
def keywordFromMsg (m : Message) (kw : String) : Prop :=
  (kw ∈ important_words ∧ isSubstr kw (strLower m.content) = true) ∨
  (∃ p ∈ (splitWs (strLower m.content)).zip (splitWs (strLower m.content)).tail,
     kw = p.1 ++ " " ++ p.2 ∧
     5 < (p.1 ++ " " ++ p.2).length ∧ (p.1 ++ " " ++ p.2).length < 50)

theorem mem_msgKeywordStep {msg : Message} {acc : List String} {kw : String}
    (h : kw ∈ msgKeywordStep acc msg) :
    kw ∈ acc ∨ keywordFromMsg msg kw := by
  unfold msgKeywordStep at h
  rcases mem_foldl_insertNew
      (fun p : String × String =>
        5 < (p.1 ++ " " ++ p.2).length ∧ (p.1 ++ " " ++ p.2).length < 50)
      (fun p => p.1 ++ " " ++ p.2) _ _ _ h with h' | ⟨p, hp, hc, he⟩
  · rcases mem_foldl_insertNew
        (fun w => isSubstr w (strLower msg.content) = true)
        (fun w => w) _ _ _ h' with h'' | ⟨w, hw, hc, he⟩
    · exact Or.inl h''
    · exact Or.inr (Or.inl ⟨he ▸ hw, he ▸ hc⟩)
  · exact Or.inr (Or.inr ⟨p, hp, he, hc⟩)

theorem mem_foldl_msgKeywordStep :
    ∀ (messages : List Message) (acc : List String) (kw : String),
      kw ∈ messages.foldl msgKeywordStep acc →
      kw ∈ acc ∨ ∃ m ∈ messages, keywordFromMsg m kw := by
  intro messages
  induction messages with
  | nil => exact fun acc kw h => Or.inl h
  | cons m t ih =>
      intro acc kw h
      rw [List.foldl_cons] at h
      rcases ih _ kw h with h' | ⟨m', hm', hk⟩
      · rcases mem_msgKeywordStep h' with h'' | hk
        · exact Or.inl h''
        · exact Or.inr ⟨m, List.mem_cons_self _ _, hk⟩
      · exact Or.inr ⟨m', List.mem_cons_of_mem _ hm', hk⟩

theorem important_words_lower : ∀ w ∈ important_words, strLower w = w := by
  decide

theorem keywordFromMsg_lower {m : Message} {kw : String}
    (h : keywordFromMsg m kw) : strLower kw = kw := by
  rcases h with ⟨hv, _⟩ | ⟨p, hp, rfl, _⟩
  · exact important_words_lower kw hv
  · obtain ⟨h1, h2⟩ := List.of_mem_zip hp
    exact phrase_lower h1 (List.mem_of_mem_tail h2)

/-! ## Claims -/

/-- C1 (counterexample): on the spec's own two-bucket example the code gives
session B the score 1.5, not the claimed 1.0 — the exact bucket `"python"`
also passes the bidirectional substring test of the partial-match loop, so B
collects +1 (exact) and +0.5 (partial). A scores 0.5 as claimed. -/
theorem search_scoring_example_ne_spec :
    dictFind
      (searchScores
        (add_conversation
          (add_conversation emptyIndex "A" ["python programming"] "t" 1)
          "B" ["python"] "t" 1)
        ["python"]) "B" = some (3/2) ∧
    (3/2 : ℚ) ≠ 1 ∧
    dictFind
      (searchScores
        (add_conversation
          (add_conversation emptyIndex "A" ["python programming"] "t" 1)
          "B" ["python"] "t" 1)
        ["python"]) "A" = some (1/2) := by
  have h :
      searchScores
        (add_conversation
          (add_conversation emptyIndex "A" ["python programming"] "t" 1)
          "B" ["python"] "t" 1)
        ["python"] = [("B", 0 + 1 + 1/2), ("A", 0 + 1/2)] := rfl
  refine ⟨?_, by norm_num, ?_⟩
  · rw [h]; norm_num [dictFind]
  · rw [h]; norm_num [dictFind]; decide

/-- C1 (amended): against buckets `{"python programming": {A}, "python":
{B}}`, `search_by_keywords(["python"])` scores B at 1.5 (+1 exact and +0.5
because the exact bucket also passes the bidirectional substring test) and
A at 0.5, and ranks B above A. -/
theorem search_scoring_example_amended :
    searchScores
      (add_conversation
        (add_conversation emptyIndex "A" ["python programming"] "t" 1)
        "B" ["python"] "t" 1)
      ["python"] = [("B", 3/2), ("A", 1/2)] ∧
    search_by_keywords
      (add_conversation
        (add_conversation emptyIndex "A" ["python programming"] "t" 1)
        "B" ["python"] "t" 1)
      ["python"] = ["B", "A"] := by
  have h :
      searchScores
        (add_conversation
          (add_conversation emptyIndex "A" ["python programming"] "t" 1)
          "B" ["python"] "t" 1)
        ["python"] = [("B", 0 + 1 + 1/2), ("A", 0 + 1/2)] := rfl
  constructor
  · rw [h]; norm_num
  · rw [search_by_keywords, h]; norm_num [sortDesc, insertDesc]

/-- C2 (counterexample): `add_conversation` never removes a session from the
buckets of keywords it no longer has. After indexing session S with
keywords `["a"]` and then re-indexing it with `["b"]`, S still sits in the
bucket of `"a"` although `"a"` is not in S's current forward keyword set,
so the inverted map is not exactly derivable from the forward map. -/
theorem index_bucket_retains_replaced_keyword :
    dictFind (applyAdds emptyIndex
      [("S", ["a"], "t", 1), ("S", ["b"], "t2", 1)]).keywords "a" =
      some ["S"] ∧
    dictFind (applyAdds emptyIndex
      [("S", ["a"], "t", 1), ("S", ["b"], "t2", 1)]).conversations "S" =
      some ⟨"t2", 1, ["b"]⟩ ∧
    "a" ∉ (⟨"t2", 1, ["b"]⟩ : IndexEntry).keywords := by
  decide

/-- C2 (amended): in every index state reachable from the empty index by
`add_conversation` calls, the forward map is contained in the inverted map:
each keyword of a session's current entry has that session in its bucket.
(The converse fails: buckets keep stale sessions, see the counterexample.) -/
theorem reachable_index_forward_subset_inverted
    (ops : List (String × List String × String × Nat)) (sid : String)
    (e : IndexEntry)
    (he : dictFind (applyAdds emptyIndex ops).conversations sid = some e)
    (k : String) (hk : k ∈ e.keywords) :
    ∃ b, dictFind (applyAdds emptyIndex ops).keywords k = some b ∧ sid ∈ b :=
  applyAdds_forwardInInverted ops emptyIndex emptyIndex_forwardInInverted
    sid e he k hk

theorem reachable_index_forward_subset_inverted_witness :
    ∃ b, dictFind (applyAdds emptyIndex
      [("S", ["a"], "t", 1)]).keywords "a" = some b ∧ "S" ∈ b :=
  reachable_index_forward_subset_inverted [("S", ["a"], "t", 1)] "S"
    ⟨"t", 1, ["a"]⟩ (by decide) "a" (by decide)

/-- C3 (counterexample): the empty string is a session id on which the
round-trip fails: `save_conversation` treats a falsy `session_id` (`None`
or `""`) as absent and stores under a generated timestamp id, so
`load("")` finds nothing. -/
theorem save_with_empty_id_not_loadable :
    load_conversation
      (save_conversation id ⟨[], none, none, emptyIndex⟩ [⟨"user", "hi"⟩]
        (some "") "20240101_000000" "t").2 "" = none ∧
    (none : Option (List Message)) ≠ some [⟨"user", "hi"⟩] :=
  ⟨rfl, by decide⟩

/-- C3 (amended): for every non-empty session id and every message list,
saving and then loading under that id returns exactly the saved messages in
order (re-saving overwrites in full, so this holds from any prior state). -/
theorem save_load_roundtrip (enum : List String → List String)
    (st : MemoryState) (history : List Message)
    (s gen_id now : String) (hs : s ≠ "") :
    load_conversation
      (save_conversation enum st history (some s) gen_id now).2 s
      = some history := by
  have hid : (if s = "" then gen_id else s) = s := if_neg hs
  simp only [save_conversation, load_conversation, hid, dictFind_dictSet_self]
  rfl

theorem save_load_roundtrip_witness :
    load_conversation
      (save_conversation id ⟨[], none, none, emptyIndex⟩ [⟨"user", "hi"⟩]
        (some "s1") "g" "t").2 "s1" = some [⟨"user", "hi"⟩] :=
  save_load_roundtrip id ⟨[], none, none, emptyIndex⟩ [⟨"user", "hi"⟩]
    "s1" "g" "t" (by decide)

/-- Parsed summaries and corrupt files partition a directory listing. -/
theorem filterMap_summary_length (files : List (String × ConvFile)) :
    (files.filterMap (fun f => f.2.map (summaryOfFile f.1))).length
      + (files.filter (fun f => f.2.isNone)).length = files.length := by
  induction files with
  | nil => rfl
  | cons f t ih =>
      cases hf : f.2 with
      | none =>
          simp [List.filterMap_cons, List.filter_cons, hf]
          omega
      | some d =>
          simp [List.filterMap_cons, List.filter_cons, hf]
          omega

/-- C4: when the `limit` window covers the whole directory, a listing over
exactly one corrupt file among N valid records returns exactly the N valid
summaries (in order) and drops only the corrupt one. -/
theorem list_conversations_skips_corrupt (files : List (String × ConvFile))
    (limit : Nat) (hlim : files.length ≤ limit)
    (hone : (files.filter (fun f => f.2.isNone)).length = 1) :
    list_conversations files limit =
      files.filterMap (fun f => f.2.map (summaryOfFile f.1)) ∧
    (list_conversations files limit).length = files.length - 1 := by
  have htake : files.take limit = files := List.take_of_length_le hlim
  have hlen := filterMap_summary_length files
  constructor
  · unfold list_conversations
    rw [htake]
  · unfold list_conversations
    rw [htake]
    omega

theorem list_conversations_skips_corrupt_witness :
    list_conversations
      [("s1", some ⟨some "t1", some "s1", some [], some 0⟩), ("bad", none),
       ("s2", some ⟨some "t2", some "s2", some [⟨"user", "hi"⟩], some 1⟩)] 10 =
      List.filterMap (fun f => f.2.map (summaryOfFile f.1))
        [("s1", some ⟨some "t1", some "s1", some [], some 0⟩), ("bad", none),
         ("s2", some ⟨some "t2", some "s2", some [⟨"user", "hi"⟩], some 1⟩)] ∧
    (list_conversations
      [("s1", some ⟨some "t1", some "s1", some [], some 0⟩), ("bad", none),
       ("s2", some ⟨some "t2", some "s2", some [⟨"user", "hi"⟩], some 1⟩)]
      10).length =
      ([("s1", some (⟨some "t1", some "s1", some [], some 0⟩ : ConvFileData)),
        ("bad", none),
        ("s2", some ⟨some "t2", some "s2", some [⟨"user", "hi"⟩], some 1⟩)] :
        List (String × ConvFile)).length - 1 :=
  list_conversations_skips_corrupt _ 10 (by decide) (by decide)

/-- The fold of `update_profile` over a whole run of extraction passes. -/
def apply_updates (p : Profile) (updates : List (ExtractedInfo × String)) :
    Profile :=
  updates.foldl (fun q u => update_profile q u.1 u.2) p

theorem update_profile_interests_subset (p : Profile) (e : ExtractedInfo)
    (now : String) : p.interests ⊆ (update_profile p e now).interests := by
  cases hi : e.interests <;>
    simp [update_profile, hi, Finset.subset_union_left]

theorem update_profile_skills_subset (p : Profile) (e : ExtractedInfo)
    (now : String) : p.skills ⊆ (update_profile p e now).skills := by
  cases hs : e.skills <;>
    simp [update_profile, hs, Finset.subset_union_left]

theorem apply_updates_interests_subset
    (updates : List (ExtractedInfo × String)) :
    ∀ p : Profile, p.interests ⊆ (apply_updates p updates).interests := by
  induction updates with
  | nil => exact fun p => Finset.Subset.refl _
  | cons u t ih =>
      intro p
      exact (update_profile_interests_subset p u.1 u.2).trans (ih _)

theorem apply_updates_skills_subset
    (updates : List (ExtractedInfo × String)) :
    ∀ p : Profile, p.skills ⊆ (apply_updates p updates).skills := by
  induction updates with
  | nil => exact fun p => Finset.Subset.refl _
  | cons u t ih =>
      intro p
      exact (update_profile_skills_subset p u.1 u.2).trans (ih _)

/-- C6: across any sequence of `update_profile` calls the `interests` and
`skills` sets never shrink (each state's sets are contained in every later
state's), and the scalar `preferred_name` is overwritten by the last
extracted truthy value rather than merged. The only shrinking operation is
the full clear of `clear_memory`. -/
theorem profile_merge_monotone :
    (∀ (p : Profile) (updates : List (ExtractedInfo × String)),
      p.interests ⊆ (apply_updates p updates).interests ∧
      p.skills ⊆ (apply_updates p updates).skills) ∧
    ∀ (p : Profile) (e : ExtractedInfo) (now n : String),
      e.preferred_name = some n → n ≠ "" →
      (update_profile p e now).preferred_name = some n := by
  refine ⟨fun p updates => ⟨apply_updates_interests_subset updates p,
    apply_updates_skills_subset updates p⟩, ?_⟩
  intro p e now n hn hne
  simp [update_profile, hn, hne]

theorem profile_merge_monotone_witness :
    ({"x"} : Finset String) ⊆
      (apply_updates ⟨"c", "u", none, {"x"}, {"y"}, [], ∅, [], [], [], [], []⟩
        [(⟨some "Bob", some {"z"}, some {"w"}, none⟩, "t2")]).interests ∧
    (update_profile ⟨"c", "u", none, {"x"}, {"y"}, [], ∅, [], [], [], [], []⟩
      ⟨some "Bob", none, none, none⟩ "t2").preferred_name = some "Bob" :=
  ⟨(profile_merge_monotone.1
      ⟨"c", "u", none, {"x"}, {"y"}, [], ∅, [], [], [], [], []⟩
      [(⟨some "Bob", some {"z"}, some {"w"}, none⟩, "t2")]).1,
   profile_merge_monotone.2
     ⟨"c", "u", none, {"x"}, {"y"}, [], ∅, [], [], [], [], []⟩
     ⟨some "Bob", none, none, none⟩ "t2" "Bob" rfl (by decide)⟩

/-- C5 (counterexample): the retained keywords are NOT the first twenty
encountered. `list(keywords)` enumerates a CPython `set` in an unspecified
hash-dependent order, so any permutation of the collected contents is an
admissible enumeration; under the (admissible) reversed enumeration of a
conversation collecting 21 distinct phrases, the first-encountered phrase
`"w01 w02"` is dropped and the result differs from the first twenty in
encounter order. -/
theorem extract_keywords_not_first_twenty :
    (∀ l : List String, (List.reverse l).Perm l) ∧
    (collectedKeywords [⟨"user",
      "w01 w02 w03 w04 w05 w06 w07 w08 w09 w10 w11 w12 w13 w14 w15 w16 w17 w18 w19 w20 w21 w22"⟩]).length
      = 21 ∧
    "w01 w02" ∈ (collectedKeywords [⟨"user",
      "w01 w02 w03 w04 w05 w06 w07 w08 w09 w10 w11 w12 w13 w14 w15 w16 w17 w18 w19 w20 w21 w22"⟩]).take 20 ∧
    "w01 w02" ∉ extract_keywords List.reverse [⟨"user",
      "w01 w02 w03 w04 w05 w06 w07 w08 w09 w10 w11 w12 w13 w14 w15 w16 w17 w18 w19 w20 w21 w22"⟩] ∧
    extract_keywords List.reverse [⟨"user",
      "w01 w02 w03 w04 w05 w06 w07 w08 w09 w10 w11 w12 w13 w14 w15 w16 w17 w18 w19 w20 w21 w22"⟩]
      ≠ (collectedKeywords [⟨"user",
      "w01 w02 w03 w04 w05 w06 w07 w08 w09 w10 w11 w12 w13 w14 w15 w16 w17 w18 w19 w20 w21 w22"⟩]).take 20 :=
  ⟨fun l => List.reverse_perm l, by decide, by decide, by decide, by decide⟩

/-- C5 (amended): for every admissible enumeration of the keyword set (any
permutation of its collected contents), every retained keyword is
lower-case and is either a topic-vocabulary word occurring (as a substring)
in the lowered conversation text, or an adjacent two-word phrase of the
lowered text with length between 6 and 49 characters inclusive, and at most
twenty keywords are retained. Which twenty survive when more than twenty
are collected is decided by the unspecified enumeration order, not by
encounter order. -/
theorem extract_keywords_characterized (enum : List String → List String)
    (henum : ∀ l : List String, (enum l).Perm l) (messages : List Message) :
    (extract_keywords enum messages).length ≤ 20 ∧
    ∀ kw ∈ extract_keywords enum messages,
      strLower kw = kw ∧
      ((kw ∈ important_words ∧
          ∃ m ∈ messages, isSubstr kw (strLower m.content) = true) ∨
       (∃ m ∈ messages,
          ∃ p ∈ (splitWs (strLower m.content)).zip
              (splitWs (strLower m.content)).tail,
            kw = p.1 ++ " " ++ p.2 ∧ 6 ≤ kw.length ∧ kw.length ≤ 49)) := by
  constructor
  · unfold extract_keywords
    simp [List.length_take]
  · intro kw hkw
    have hkw₁ : kw ∈ enum (collectedKeywords messages) :=
      List.take_subset _ _ hkw
    have hkw' : kw ∈ messages.foldl msgKeywordStep [] :=
      ((henum (collectedKeywords messages)).mem_iff).mp hkw₁
    rcases mem_foldl_msgKeywordStep messages [] kw hkw' with h | ⟨m, hm, hk⟩
    · cases h
    refine ⟨keywordFromMsg_lower hk, ?_⟩
    rcases hk with ⟨hv, hs⟩ | ⟨p, hp, he, hl1, hl2⟩
    · exact Or.inl ⟨hv, m, hm, hs⟩
    · subst he
      exact Or.inr ⟨m, hm, p, hp, rfl, by omega, by omega⟩

theorem extract_keywords_characterized_witness :
    (extract_keywords id [⟨"user", "I like Python code"⟩]).length ≤ 20 ∧
    (strLower "python" = "python" ∧
      (("python" ∈ important_words ∧
          ∃ m ∈ [(⟨"user", "I like Python code"⟩ : Message)],
            isSubstr "python" (strLower m.content) = true) ∨
       (∃ m ∈ [(⟨"user", "I like Python code"⟩ : Message)],
          ∃ p ∈ (splitWs (strLower m.content)).zip
              (splitWs (strLower m.content)).tail,
            "python" = p.1 ++ " " ++ p.2 ∧ 6 ≤ "python".length ∧
              "python".length ≤ 49))) :=
  ⟨(extract_keywords_characterized id (fun l => List.Perm.refl l)
      [⟨"user", "I like Python code"⟩]).1,
   (extract_keywords_characterized id (fun l => List.Perm.refl l)
      [⟨"user", "I like Python code"⟩]).2
     "python" (by decide)⟩

/-- C7: `clear_memory` without confirmation deletes nothing and reports
failure; with confirmation it returns success, removes every conversation
file, the current-session file, the profile file and the index file,
reinitializes the index to empty, and afterwards listing is empty and
loading any session id yields "not found". -/
theorem clear_memory_spec (st : MemoryState) (limit : Nat) (sid : String) :
    clear_memory st false = (false, st) ∧
    (clear_memory st true).1 = true ∧
    (clear_memory st true).2 = (⟨[], none, none, emptyIndex⟩ : MemoryState) ∧
    list_conversations (clear_memory st true).2.conversations limit = [] ∧
    load_conversation (clear_memory st true).2 sid = none := by
  refine ⟨rfl, rfl, rfl, ?_, rfl⟩
  simp [clear_memory, list_conversations]

/-- C8 (counterexample): index consistency fails for keywords containing
upper-case letters: after `add_conversation("S", ["A"], ...)` the bucket
key is `"A"`, but `search_by_keywords(["A"])` lowers the query to `"a"`,
which matches `"A"` neither exactly nor by the case-sensitive substring
test, so S is not returned although `"A" ∈ K`. -/
theorem add_search_uppercase_keyword_missing :
    "A" ∈ (["A"] : List String) ∧
    "S" ∉ search_by_keywords
      (add_conversation emptyIndex "S" ["A"] "t" 1) ["A"] :=
  ⟨by decide, by decide⟩

/-- C8 (amended): for every keyword `k` of the newly indexed set that is
already lower-case (as all keywords produced by `_extract_keywords` are),
`search_by_keywords([k])` includes the session immediately after
`add_conversation`. -/
theorem add_conversation_search_includes (idx : ConvIndex) (sid : String)
    (K : List String) (t : String) (n : Nat) (k : String)
    (hk : k ∈ K) (hlow : strLower k = k) :
    sid ∈ search_by_keywords (add_conversation idx sid K t n) [k] := by
  obtain ⟨b, hb, hsb⟩ := foldl_addKeyword_mem K sid hk idx.keywords
  have hb' : dictFind (add_conversation idx sid K t n).keywords
      (strLower k) = some b := by
    rw [hlow]; exact hb
  exact mem_map_fst_sortDesc (scoreKeyword_keys_mem hb' hsb [])

theorem add_conversation_search_includes_witness :
    "S" ∈ search_by_keywords
      (add_conversation emptyIndex "S" ["a"] "t" 1) ["a"] :=
  add_conversation_search_includes emptyIndex "S" ["a"] "t" 1 "a"
    (by decide) (by decide)

/-- C9: the profile-extraction pass is a pure function of the conversation
text: it reads nothing from the ambient run context (clock, process id,
hash seed), so two runs over the same input produce the same extracted
interests, skills, preferences and preferred name. -/
theorem extract_from_conversation_deterministic (env₁ env₂ : RunEnv)
    (history : List Message) :
    extract_from_conversation env₁ history =
      extract_from_conversation env₂ history := rfl

/-- C10: the permission gate fails closed: an operation with no entry in
the permission table and no unexpired temporary grant is denied; in
particular the default table omits `internet_access`, so internet access
checks deny at every instant. -/
theorem check_permission_fail_closed :
    (∀ (permissions : List (String × PermLevel))
       (temps : List (String × PermLevel × Nat)) (now : Nat)
       (op : OperationType),
       dictFind permissions op.val = none →
       dictFind (cleanupExpired now temps) op.val = none →
       check_permission permissions temps now op = .DENY) ∧
    ∀ now : Nat,
      check_permission default_permissions [] now .INTERNET_ACCESS = .DENY := by
  constructor
  · intro permissions temps now op h1 h2
    unfold check_permission
    rw [h2, h1]
    rfl
  · intro now
    rfl

theorem check_permission_fail_closed_witness :
    check_permission default_permissions [] 0 .INTERNET_ACCESS = .DENY :=
  check_permission_fail_closed.1 default_permissions [] 0 .INTERNET_ACCESS
    (by decide) (by decide)

end Augi
